import Mathlib

/-!
Verification of the mTAN interpolation notebook (`src/main.ipynb`).

The notebook defines five pieces:
* `TimeEmbedding`   : `cos(w * t + b)` applied coordinatewise (`nn.Linear(1, dim)` then `cos`);
* `MultiTimeAttention` : multi-head attention whose logits are the sum of a content
  score `q·k / sqrt(head_dim)` and a time score `q·te / sqrt(head_dim)`, softmaxed
  along the key axis;
* `ImprovedMTAN`    : input projection, a residually-stacked list of attention layers,
  and a scalar output projection;
* `train_model`     : a fixed-epoch training loop (Adam + ReduceLROnPlateau are
  torch-library internals, abstracted below as an opaque epoch-step function;
  the loop control flow itself is translated faithfully: no early exit, no
  finiteness check on the loss);
* `interpolate`     : resamples the observed series onto the dense query grid with
  `np.interp`, then runs the trained model under `torch.no_grad()`.

Real-valued tensors are embedded as functions out of `Fin`; machine floats are
modelled by exact reals (`ℝ`), except where a claim is about the presence of
non-finite values, where the small carrier `FVal` keeps NaN explicit.
-/

/-! ## Trainer (`train_model`, cell 4)

The loop body (forward pass, MSE loss, backward, `optimizer.step()`,
`scheduler.step(loss)`) consists of torch-library calls; it is abstracted as a
state-transformer `step : ℕ → σ → σ`.  The loop itself — `for epoch in
range(epochs): ...` with no `break`, no exception, and no test on the loss —
is translated exactly. -/

/-- Values a float-valued loss can take: a finite rational, or one of the
non-finite IEEE values (NaN, +inf, -inf). -/
inductive FVal where
  | fin : ℚ → FVal
  | nan : FVal
  | inf : FVal
  | ninf : FVal
deriving DecidableEq

/-- Whether a float-model value is finite. -/
def FVal.isFinite : FVal → Bool
  | .fin _ => true
  | _ => false

/-- `train_model` from cell 4: runs the epoch body `epochs` times, threading the
training state; there is no conditional exit of any kind in the source loop. -/
def train_model {σ : Type} (step : ℕ → σ → σ) (s0 : σ) (epochs : ℕ) : σ :=
  (List.range epochs).foldl (fun s e => step e s) s0

/-- The trace of training states: the initial state followed by the state after
each executed epoch.  Its length witnesses how many epochs actually ran. -/
def trainTrace {σ : Type} (step : ℕ → σ → σ) (s0 : σ) (epochs : ℕ) : List σ :=
  (List.range epochs).scanl (fun s e => step e s) s0

/-- An epoch body whose loss diverges immediately: from the first epoch on, the
tracked loss is NaN.  (Reachable in the source, e.g. with an exploding learning
rate; the claim under test is about the loop's reaction to such a state.) -/
def divergingStep : ℕ → FVal → FVal := fun _ _ => FVal.nan

/-! ## `np.interp` (used by `interpolate`, cell 5)

`np.interp(q, t, x)` is the numpy piecewise-linear interpolant over the sorted
support `(t, x)`: constant `x[0]` for `q ≤ t[0]`, constant `x[last]` for
`q ≥ t[last]`, and the linear segment formula in between.  It is embedded over
any linear ordered field so that the same definition serves the real-valued
`interpolate` and decidable rational test points. -/

/-- One query of `np.interp` against a support list of (time, value) pairs. -/
def interpPoint {α : Type} [LinearOrderedField α] : List (α × α) → α → α
  | [], _ => 0
  | [p], _ => p.2
  | p :: q :: rest, u =>
    if u ≤ p.1 then p.2
    else if u ≤ q.1 then p.2 + (q.2 - p.2) * (u - p.1) / (q.1 - p.1)
    else interpPoint (q :: rest) u

/-- `np.interp` mapped over a whole query grid (the `x_dense` construction in
cell 5); `none` mirrors the `ValueError` numpy raises on an empty support or
mismatched support lengths. -/
def npInterp {α : Type} [LinearOrderedField α] (tq t x : List α) : Option (List α) :=
  if t.length = x.length ∧ 0 < t.length then
    some (tq.map (interpPoint (t.zip x)))
  else none

/-- Two-step structural induction on lists, matching the recursion pattern of
`interpPoint`. -/
theorem twoStepInduction {β : Type} {P : List β → Prop} (h0 : P [])
    (h1 : ∀ a, P [a]) (h2 : ∀ a b l, P (b :: l) → P (a :: b :: l)) :
    ∀ l, P l
  | [] => h0
  | [a] => h1 a
  | a :: b :: l => h2 a b l (twoStepInduction h0 h1 h2 (b :: l))

/-! ## TimeEmbedding (cell 1)

`TimeEmbedding(dim)` holds `nn.Linear(1, dim)` — a weight column `w : Fin dim → ℝ`
and a bias `b : Fin dim → ℝ` — and its forward pass is `cos(w * t + b)`
coordinatewise. -/

/-- Forward pass of `TimeEmbedding`: coordinate `i` of the embedding of the
scalar time `t` is `cos (w i * t + b i)`. -/
noncomputable def timeEmbedding {dim : ℕ} (w b : Fin dim → ℝ) (t : ℝ) : Fin dim → ℝ :=
  fun i => Real.cos (w i * t + b i)

/-! ## Constructor-time configuration (cells 2 and 3)

`MultiTimeAttention.__init__` records `embed_dim`, `num_heads` and
`head_dim = embed_dim // num_heads` (Python floor division) and builds the
linear layers.  It performs no divisibility check; the only way it can fail is
the `ZeroDivisionError` of `// 0`.  `ImprovedMTAN.__init__` builds
`num_layers` such attention layers with `(hidden_dim, hidden_dim, num_heads)`
plus the input/output projections, again with no validation. -/

/-- Static configuration recorded by `MultiTimeAttention.__init__`. -/
structure MTAConfig where
  inputDim : ℕ
  embedDim : ℕ
  numHeads : ℕ
  headDim : ℕ
deriving DecidableEq

/-- `MultiTimeAttention.__init__`: always succeeds except for `num_heads = 0`
(Python `ZeroDivisionError`); in particular it performs no check that
`num_heads` divides `embed_dim`, silently recording the floored `head_dim`. -/
def mtaInit (inputDim embedDim numHeads : ℕ) : Option MTAConfig :=
  if numHeads = 0 then none
  else some ⟨inputDim, embedDim, numHeads, embedDim / numHeads⟩

/-- Static configuration recorded by `ImprovedMTAN.__init__`. -/
structure MTANConfig where
  inputDim : ℕ
  hiddenDim : ℕ
  numHeads : ℕ
  numLayers : ℕ
  layerCfgs : List MTAConfig
deriving DecidableEq

/-- `ImprovedMTAN.__init__`: constructs `num_layers` attention layers, each via
`mtaInit hidden_dim hidden_dim num_heads`, with no configuration validation of
its own. -/
def mtanInit (inputDim hiddenDim numHeads numLayers : ℕ) : Option MTANConfig :=
  match (List.range numLayers).mapM (fun _ => mtaInit hiddenDim hiddenDim numHeads) with
  | some cfgs => some ⟨inputDim, hiddenDim, numHeads, numLayers, cfgs⟩
  | none => none

/-- The condition under which `q.view(B, L, num_heads, head_dim)` succeeds in
`MultiTimeAttention.forward` (torch `view` requires equal element counts). -/
def viewOk (B L : ℕ) (cfg : MTAConfig) : Bool :=
  B * L * cfg.embedDim = B * L * (cfg.numHeads * cfg.headDim)

/-! ## MultiTimeAttention forward pass (cell 2)

Tensors of shape `(B, L, D)` are embedded as `Fin B → Fin L → Fin D → ℝ`.
`q.view(B, L, H, hd).transpose(1, 2)` sends flat coordinate `h * hd + d` of
position `i` to head coordinate `[h, i, d]`; `headSlice` is that reindexing
(total, with a default outside the flat range — the in-range side is the only
one reachable under the `view` success condition). -/

section MTA

variable {B L D E : ℕ}

/-- Learned parameters of one `MultiTimeAttention` layer: the three
`nn.Linear(input_dim, embed_dim)` projections and its `TimeEmbedding(embed_dim)`. -/
structure MTAParams (D E : ℕ) where
  wq : Fin E → Fin D → ℝ
  bq : Fin E → ℝ
  wk : Fin E → Fin D → ℝ
  bk : Fin E → ℝ
  wv : Fin E → Fin D → ℝ
  bv : Fin E → ℝ
  tw : Fin E → ℝ
  tb : Fin E → ℝ

/-- An `nn.Linear` forward pass: `W x + b`. -/
def linearMap (W : Fin E → Fin D → ℝ) (bias : Fin E → ℝ) (x : Fin D → ℝ) :
    Fin E → ℝ :=
  fun e => (∑ j, W e j * x j) + bias e

/-- `q = self.q_linear(x)`. -/
def mtaQ (p : MTAParams D E) (x : Fin B → Fin L → Fin D → ℝ) :
    Fin B → Fin L → Fin E → ℝ :=
  fun b i => linearMap p.wq p.bq (x b i)

/-- `k = self.k_linear(x)`. -/
def mtaK (p : MTAParams D E) (x : Fin B → Fin L → Fin D → ℝ) :
    Fin B → Fin L → Fin E → ℝ :=
  fun b i => linearMap p.wk p.bk (x b i)

/-- `v = self.v_linear(x)`. -/
def mtaV (p : MTAParams D E) (x : Fin B → Fin L → Fin D → ℝ) :
    Fin B → Fin L → Fin E → ℝ :=
  fun b i => linearMap p.wv p.bv (x b i)

/-- `te = self.time_embedding(t)`. -/
noncomputable def mtaTE (p : MTAParams D E) (t : Fin B → Fin L → ℝ) :
    Fin B → Fin L → Fin E → ℝ :=
  fun b i => timeEmbedding p.tw p.tb (t b i)

/-- Entry `[h, d]` of the per-position `view(·, num_heads, head_dim)` of a flat
`embed_dim` vector: flat coordinate `h * hd + d`. -/
def headSlice {H : ℕ} (hd : ℕ) (v : Fin E → ℝ) (h : Fin H) (d : Fin hd) : ℝ :=
  if hlt : h.1 * hd + d.1 < E then v ⟨h.1 * hd + d.1, hlt⟩ else 0

/-- The flat `embed_dim` coordinate addressed by head `h`, offset `d`, when
`num_heads * head_dim = embed_dim`. -/
def headIdx {H E : ℕ} (hd : ℕ) (h : Fin H) (d : Fin hd) (hE : H * hd = E) :
    Fin E :=
  ⟨h.1 * hd + d.1, by
    have h1 : h.1 * hd + d.1 < (h.1 + 1) * hd := by
      rw [Nat.succ_mul]
      exact Nat.add_lt_add_left d.2 _
    exact hE ▸ Nat.lt_of_lt_of_le h1 (Nat.mul_le_mul_right hd h.2)⟩

/-- First score tensor: `torch.matmul(q, k.transpose(-2, -1)) / np.sqrt(head_dim)`. -/
noncomputable def mtaScoreContent (H hd : ℕ) (p : MTAParams D E) (x : Fin B → Fin L → Fin D → ℝ) :
    Fin B → Fin H → Fin L → Fin L → ℝ :=
  fun b h i j =>
    (∑ d : Fin hd, headSlice hd (mtaQ p x b i) h d * headSlice hd (mtaK p x b j) h d) /
      Real.sqrt hd

/-- Second score tensor: `torch.matmul(q, te.transpose(-2, -1)) / np.sqrt(head_dim)`. -/
noncomputable def mtaScoreTime (H hd : ℕ) (p : MTAParams D E) (x : Fin B → Fin L → Fin D → ℝ)
    (t : Fin B → Fin L → ℝ) : Fin B → Fin H → Fin L → Fin L → ℝ :=
  fun b h i j =>
    (∑ d : Fin hd, headSlice hd (mtaQ p x b i) h d * headSlice hd (mtaTE p t b j) h d) /
      Real.sqrt hd

/-- Attention logits: the two score tensors summed (`attn = attn + ...`),
before any normalization. -/
noncomputable def mtaLogits (H hd : ℕ) (p : MTAParams D E) (x : Fin B → Fin L → Fin D → ℝ)
    (t : Fin B → Fin L → ℝ) : Fin B → Fin H → Fin L → Fin L → ℝ :=
  fun b h i j => mtaScoreContent H hd p x b h i j + mtaScoreTime H hd p x t b h i j

/-- Attention weights: `torch.softmax(attn, dim=-1)`, i.e. softmax of the
logits along the key axis, independently per batch, head and query position. -/
noncomputable def mtaWeights (H hd : ℕ) (p : MTAParams D E) (x : Fin B → Fin L → Fin D → ℝ)
    (t : Fin B → Fin L → ℝ) : Fin B → Fin H → Fin L → Fin L → ℝ :=
  fun b h i j =>
    Real.exp (mtaLogits H hd p x t b h i j) /
      ∑ j' : Fin L, Real.exp (mtaLogits H hd p x t b h i j')

/-- Per-head output: `torch.matmul(attn, v)`. -/
noncomputable def mtaHeadOut (H hd : ℕ) (p : MTAParams D E) (x : Fin B → Fin L → Fin D → ℝ)
    (t : Fin B → Fin L → ℝ) : Fin B → Fin H → Fin L → Fin hd → ℝ :=
  fun b h i d => ∑ j, mtaWeights H hd p x t b h i j * headSlice hd (mtaV p x b j) h d

/-- Layer output: `out.transpose(1, 2).contiguous().view(B, L, embed_dim)` —
flat coordinate `e` reads head `e / hd`, offset `e % hd`. -/
noncomputable def mtaOut (H hd : ℕ) (p : MTAParams D E) (x : Fin B → Fin L → Fin D → ℝ)
    (t : Fin B → Fin L → ℝ) : Fin B → Fin L → Fin E → ℝ :=
  fun b i e =>
    if h : e.1 / hd < H ∧ e.1 % hd < hd then
      mtaHeadOut H hd p x t b ⟨e.1 / hd, h.1⟩ i ⟨e.1 % hd, h.2⟩
    else 0

end MTA

/-! ## ImprovedMTAN forward pass (cell 3)

`forward(t, x)` lifts each scalar observation with `input_proj`
(`nn.Linear(1, hidden_dim)` on `x.unsqueeze(-1)`), folds the attention layers
with `x = layer(x, t) + x`, and reads a scalar per position with
`self.fc(x).squeeze(-1)`. -/

section MTAN

variable {B L E : ℕ}

/-- Learned parameters of `ImprovedMTAN` (the `ModelParameters` of the spec):
input projection, the ordered list of attention-layer parameters, and the
output projection `fc`. -/
structure MTANParams (E : ℕ) where
  wIn : Fin E → ℝ
  bIn : Fin E → ℝ
  layers : List (MTAParams E E)
  wOut : Fin E → ℝ
  bOut : ℝ

/-- `self.input_proj(x.unsqueeze(-1))` at one position: lift the scalar `xv`
into hidden space. -/
def inputProj (p : MTANParams E) (xv : ℝ) : Fin E → ℝ :=
  fun e => p.wIn e * xv + p.bIn e

/-- `self.fc(·).squeeze(-1)` at one position: hidden vector back to a scalar. -/
noncomputable def outputProj (p : MTANParams E) (v : Fin E → ℝ) : ℝ :=
  (∑ e, p.wOut e * v e) + p.bOut

/-- The residual stack `for layer in self.attention_layers: x = layer(x, t) + x`,
folded left over the layer list from the hidden input `h0`. -/
noncomputable def mtanHidden (H hd : ℕ) (layers : List (MTAParams E E))
    (t : Fin B → Fin L → ℝ) (h0 : Fin B → Fin L → Fin E → ℝ) :
    Fin B → Fin L → Fin E → ℝ :=
  layers.foldl (fun acc q => fun b i e => mtaOut H hd q acc t b i e + acc b i e) h0

/-- `ImprovedMTAN.forward(t, x)` (mathematical content): input projection,
residual attention stack, output projection, one scalar per position. -/
noncomputable def mtanForwardCore (H hd : ℕ) (p : MTANParams E)
    (t x : Fin B → Fin L → ℝ) : Fin B → Fin L → ℝ :=
  fun b i =>
    outputProj p (mtanHidden H hd p.layers t (fun b' i' => inputProj p (x b' i')) b i)

/-- `ImprovedMTAN.forward` with the torch `view` feasibility check of each
attention layer made explicit: with at least one layer, the reshape
`view(B, L, num_heads, head_dim)` must preserve the element count, else the
forward pass raises (`none`).  With zero layers no reshape ever runs. -/
noncomputable def mtanForwardChecked (H hd : ℕ) (p : MTANParams E)
    (t x : Fin B → Fin L → ℝ) : Option (Fin B → Fin L → ℝ) :=
  if p.layers.isEmpty = true ∨ B * L * E = B * L * (H * hd) then
    some (mtanForwardCore H hd p t x)
  else none

/-- Pure projection pipeline, written from the spec's words: the output
projection composed with the input projection, applied independently at each
position, with no attention layer and no use of the timestamps. -/
noncomputable def specPureProjection (p : MTANParams E) (xv : ℝ) : ℝ :=
  outputProj p (inputProj p xv)

/-! ## Interpolator (cell 5)

`interpolate(model, t, x, t_dense)` computes `x_dense = np.interp(t_dense, t, x)`
(raising if the support is empty or of mismatched lengths), then evaluates the
model on the singleton batch `(t_dense, x_dense)` under `torch.no_grad()`. -/

/-- `interpolate` from cell 5: resample the observed series `(t, x)` onto the
query grid `tq` with `np.interp`, then run the trained model; the result is the
ordered list of per-query-position scalars. -/
noncomputable def interpolate (H hd : ℕ) (p : MTANParams E) (t x tq : List ℝ) :
    Option (List ℝ) :=
  if t.length = x.length ∧ 0 < t.length then
    match mtanForwardChecked (B := 1) (L := tq.length) H hd p
        (fun _ j => tq.get j) (fun _ j => interpPoint (t.zip x) (tq.get j)) with
    | some out => some (List.ofFn fun i : Fin tq.length => out 0 i)
    | none => none
  else none

/-- A model instance as mutable torch state: the learned parameters together
with whatever residual autograd state (gradient buffers, optimizer moments)
the process carries; `γ` is that extra state. -/
structure ModelSt (E : ℕ) (γ : Type) where
  params : MTANParams E
  grads : γ

/-- An `interpolate` call seen as a state transformer on the model state: the
source performs no parameter assignment and runs under `torch.no_grad()` (no
backward pass, no gradient accumulation), so the state passes through while
the returned value reads `st.params` only. -/
noncomputable def interpolateCall {γ : Type} (H hd : ℕ) (st : ModelSt E γ)
    (t x tq : List ℝ) : Option (List ℝ) × ModelSt E γ :=
  (interpolate H hd st.params t x tq, st)

end MTAN

/-! ## Concrete instances used by closed witnesses and counterexamples -/

/-- All-zero parameters of one attention layer at `embed_dim = hidden_dim = 64`. -/
noncomputable def mtaP64 : MTAParams 64 64 :=
  ⟨fun _ _ => 0, fun _ => 0, fun _ _ => 0, fun _ => 0, fun _ _ => 0, fun _ => 0,
    fun _ => 0, fun _ => 0⟩

/-- A 64-wide model with one (all-zero) attention layer: the shape produced by
`ImprovedMTAN(input_dim=1, hidden_dim=64, num_heads=3, num_layers=1)`. -/
noncomputable def mtanP64 : MTANParams 64 :=
  ⟨fun _ => 0, fun _ => 0, [mtaP64], fun _ => 0, 0⟩

/-- All-zero parameters of one attention layer at width 1. -/
noncomputable def mtaP1 : MTAParams 1 1 :=
  ⟨fun _ _ => 0, fun _ => 0, fun _ _ => 0, fun _ => 0, fun _ _ => 0, fun _ => 0,
    fun _ => 0, fun _ => 0⟩

/-- A width-1 model with no attention layers. -/
noncomputable def mtanP1 : MTANParams 1 :=
  ⟨fun _ => 0, fun _ => 0, [], fun _ => 0, 0⟩

/-! ## Properties of the `np.interp` embedding -/

section InterpLemmas

variable {α : Type} [LinearOrderedField α]

/-- Unfolding of `interpPoint` on a support of at least two points. -/
theorem interpPoint_cons_cons (p q : α × α) (rest : List (α × α)) (u : α) :
    interpPoint (p :: q :: rest) u
      = if u ≤ p.1 then p.2
        else if u ≤ q.1 then p.2 + (q.2 - p.2) * (u - p.1) / (q.1 - p.1)
        else interpPoint (q :: rest) u := rfl

/-- The linear segment formula evaluated at the right endpoint of the segment. -/
theorem segEndpoint (p q : α × α) (hpq : p.1 < q.1) :
    p.2 + (q.2 - p.2) * (q.1 - p.1) / (q.1 - p.1) = q.2 := by
  rw [mul_div_assoc, div_self (sub_ne_zero.2 (ne_of_gt hpq)), mul_one]
  ring

/-- In a strictly time-increasing support list, the head's time is a lower
bound for every element's time. -/
theorem pairwise_head_le {p : α × α} {l : List (α × α)}
    (hpw : (p :: l).Pairwise (fun s r => s.1 < r.1)) :
    ∀ s ∈ p :: l, p.1 ≤ s.1 := by
  intro s hs
  rcases List.mem_cons.1 hs with h | h
  · simp [h]
  · exact le_of_lt ((List.pairwise_cons.1 hpw).1 s h)

/-- Queries at or below the first support time clamp to the first value. -/
theorem interpPoint_clamp_low (p : α × α) (l : List (α × α)) (u : α)
    (hu : u ≤ p.1) : interpPoint (p :: l) u = p.2 := by
  cases l with
  | nil => rfl
  | cons q rest => exact if_pos hu

/-- Queries at or above the last support time clamp to the last value
(strictly increasing support). -/
theorem interpPoint_clamp_high :
    ∀ (l : List (α × α)) (p : α × α),
      (p :: l).Pairwise (fun s r => s.1 < r.1) →
      ∀ u : α, (List.getLast (p :: l) (List.cons_ne_nil p l)).1 ≤ u →
      interpPoint (p :: l) u = (List.getLast (p :: l) (List.cons_ne_nil p l)).2 := by
  intro l
  induction l with
  | nil =>
    intro p _ u _
    rfl
  | cons q rest ih =>
    intro p hpw u hu
    have hql : List.getLast (p :: q :: rest) (List.cons_ne_nil p (q :: rest))
        = List.getLast (q :: rest) (List.cons_ne_nil q rest) :=
      List.getLast_cons (List.cons_ne_nil q rest)
    have hpq : p.1 < q.1 := (List.pairwise_cons.1 hpw).1 q (List.mem_cons_self q rest)
    have hpw2 : (q :: rest).Pairwise (fun s r => s.1 < r.1) := hpw.of_cons
    have hqlast : q.1 ≤ (List.getLast (q :: rest) (List.cons_ne_nil q rest)).1 :=
      pairwise_head_le hpw2 _ (List.getLast_mem (List.cons_ne_nil q rest))
    rw [hql] at hu ⊢
    have hqu : q.1 ≤ u := le_trans hqlast hu
    have h1 : ¬ u ≤ p.1 := not_le.2 (lt_of_lt_of_le hpq hqu)
    rcases eq_or_lt_of_le hqu with heq | hlt
    · have hl1 : (List.getLast (q :: rest) (List.cons_ne_nil q rest)).1 = q.1 :=
        le_antisymm (heq ▸ hu) hqlast
      cases rest with
      | nil =>
        rw [interpPoint_cons_cons, if_neg h1, if_pos (le_of_eq heq.symm),
          List.getLast_singleton, ← heq]
        exact segEndpoint p q hpq
      | cons r rest2 =>
        exfalso
        have hmem : List.getLast (q :: r :: rest2) (List.cons_ne_nil q (r :: rest2))
            ∈ r :: rest2 := by
          rw [List.getLast_cons (List.cons_ne_nil r rest2)]
          exact List.getLast_mem (List.cons_ne_nil r rest2)
        have hlt2 := (List.pairwise_cons.1 hpw2).1 _ hmem
        rw [hl1] at hlt2
        exact lt_irrefl _ hlt2
    · have h2 : ¬ u ≤ q.1 := not_le.2 hlt
      rw [interpPoint_cons_cons, if_neg h1, if_neg h2]
      exact ih q hpw2 u hu

/-- A query exactly at a support time returns exactly the stored value
(strictly increasing support). -/
theorem interpPoint_support :
    ∀ pts : List (α × α), pts.Pairwise (fun s r => s.1 < r.1) →
      ∀ s ∈ pts, interpPoint pts s.1 = s.2 := by
  intro pts
  induction pts with
  | nil => intro _ s hs; cases hs
  | cons p l ih =>
    intro hpw s hs
    rcases List.mem_cons.1 hs with rfl | hmem
    · exact interpPoint_clamp_low s l s.1 le_rfl
    · have hps : p.1 < s.1 := (List.pairwise_cons.1 hpw).1 s hmem
      cases l with
      | nil => cases hmem
      | cons q rest =>
        have hpw2 : (q :: rest).Pairwise (fun s r => s.1 < r.1) := hpw.of_cons
        rw [interpPoint_cons_cons, if_neg (not_le.2 hps)]
        rcases List.mem_cons.1 hmem with rfl | hmem2
        · rw [if_pos le_rfl]
          exact segEndpoint p s hps
        · have hqs2 : q.1 < s.1 := (List.pairwise_cons.1 hpw2).1 s hmem2
          rw [if_neg (not_le.2 hqs2)]
          exact ih hpw2 s hmem

/-- Between two consecutive support times, `interpPoint` returns the linear
segment formula (strictly increasing support). -/
theorem interpPoint_segment :
    ∀ pts : List (α × α), pts.Pairwise (fun s r => s.1 < r.1) →
      ∀ (i : ℕ) (hi : i + 1 < pts.length) (u : α),
        (pts.get ⟨i, Nat.lt_of_succ_lt hi⟩).1 ≤ u → u ≤ (pts.get ⟨i + 1, hi⟩).1 →
        interpPoint pts u
          = (pts.get ⟨i, Nat.lt_of_succ_lt hi⟩).2
            + ((pts.get ⟨i + 1, hi⟩).2 - (pts.get ⟨i, Nat.lt_of_succ_lt hi⟩).2)
              * (u - (pts.get ⟨i, Nat.lt_of_succ_lt hi⟩).1)
              / ((pts.get ⟨i + 1, hi⟩).1 - (pts.get ⟨i, Nat.lt_of_succ_lt hi⟩).1) := by
  intro pts
  induction pts with
  | nil =>
    intro _ i hi
    exact absurd hi (by simp)
  | cons p l ih =>
    intro hpw i hi u hl hr
    cases l with
    | nil =>
      exfalso
      simp only [List.length_cons, List.length_nil] at hi
      omega
    | cons q rest =>
      have hpq : p.1 < q.1 := (List.pairwise_cons.1 hpw).1 q (List.mem_cons_self q rest)
      have hpw2 : (q :: rest).Pairwise (fun s r => s.1 < r.1) := hpw.of_cons
      cases i with
      | zero =>
        have hl2 : p.1 ≤ u := hl
        have hr2 : u ≤ q.1 := hr
        have hg0 : ((p :: q :: rest).get ⟨0, Nat.lt_of_succ_lt hi⟩) = p := rfl
        have hg1 : ((p :: q :: rest).get ⟨0 + 1, hi⟩) = q := rfl
        rw [interpPoint_cons_cons, hg0, hg1]
        by_cases hup : u ≤ p.1
        · rw [if_pos hup]
          have hu : u = p.1 := le_antisymm hup hl2
          rw [hu]
          simp
        · rw [if_neg hup, if_pos hr2]
      | succ j =>
        have hj1 : j + 1 < (q :: rest).length := by
          simp only [List.length_cons] at hi ⊢
          omega
        have hj0 : j < (q :: rest).length := Nat.lt_of_succ_lt hj1
        have hl2 : ((q :: rest).get ⟨j, hj0⟩).1 ≤ u := hl
        have hr2 : u ≤ ((q :: rest).get ⟨j + 1, hj1⟩).1 := hr
        have hqj : q.1 ≤ ((q :: rest).get ⟨j, hj0⟩).1 :=
          pairwise_head_le hpw2 _ (List.get_mem (q :: rest) j hj0)
        have hqu : q.1 ≤ u := le_trans hqj hl2
        have hpu : ¬ u ≤ p.1 := not_le.2 (lt_of_lt_of_le hpq hqu)
        rw [interpPoint_cons_cons, if_neg hpu]
        rcases eq_or_lt_of_le hqu with heq | hlt
        · have hgj : ((q :: rest).get ⟨j, hj0⟩).1 = q.1 :=
            le_antisymm (heq ▸ hl2) hqj
          have hj00 : j = 0 := by
            by_contra hj0ne
            obtain ⟨k, rfl⟩ : ∃ k, j = k + 1 := ⟨j - 1, by omega⟩
            have hk : k < rest.length := by
              simp only [List.length_cons] at hj0
              omega
            have hmem : (q :: rest).get ⟨k + 1, hj0⟩ ∈ rest := by
              have : (q :: rest).get ⟨k + 1, hj0⟩ = rest.get ⟨k, hk⟩ := rfl
              rw [this]
              exact List.get_mem rest k hk
            have hq2 := (List.pairwise_cons.1 hpw2).1 _ hmem
            rw [hgj] at hq2
            exact lt_irrefl _ hq2
          subst hj00
          have hget0 : ((q :: rest).get ⟨0, hj0⟩) = q := rfl
          rw [if_pos (le_of_eq heq.symm), ← heq]
          rw [segEndpoint p q hpq]
          have hq1 : ((p :: q :: rest).get ⟨0 + 1, Nat.lt_of_succ_lt hi⟩) = q := rfl
          rw [hq1]
          simp
        · rw [if_neg (not_le.2 hlt)]
          exact ih hpw2 j hj1 u hl2 hr2

end InterpLemmas

/-! ## Claim theorems -/

/-- Claim C3: for every observed series with strictly increasing times, the
input value the Interpolator synthesizes at a query time (via `interpPoint`,
the `np.interp` step of `interpolate`) is the piecewise-linear interpolation of
the observed (time, value) pairs: queries at or below the first observed time
clamp to the first observed value, queries at or above the last observed time
clamp to the last observed value, a query between two consecutive observed
times returns the linear segment formula, and a query exactly at an observed
timestamp returns exactly the observed value. -/
theorem interpolator_piecewise_linear {α : Type} [LinearOrderedField α]
    (pts : List (α × α)) (hpw : pts.Pairwise (fun s r => s.1 < r.1))
    (hne : pts ≠ []) :
    (∀ u, u ≤ (pts.head hne).1 → interpPoint pts u = (pts.head hne).2)
    ∧ (∀ u, (pts.getLast hne).1 ≤ u → interpPoint pts u = (pts.getLast hne).2)
    ∧ (∀ (i : ℕ) (hi : i + 1 < pts.length) (u : α),
        (pts.get ⟨i, Nat.lt_of_succ_lt hi⟩).1 ≤ u → u ≤ (pts.get ⟨i + 1, hi⟩).1 →
        interpPoint pts u
          = (pts.get ⟨i, Nat.lt_of_succ_lt hi⟩).2
            + ((pts.get ⟨i + 1, hi⟩).2 - (pts.get ⟨i, Nat.lt_of_succ_lt hi⟩).2)
              * (u - (pts.get ⟨i, Nat.lt_of_succ_lt hi⟩).1)
              / ((pts.get ⟨i + 1, hi⟩).1 - (pts.get ⟨i, Nat.lt_of_succ_lt hi⟩).1))
    ∧ (∀ s ∈ pts, interpPoint pts s.1 = s.2) := by
  match pts, hne with
  | p :: l, _ =>
    refine ⟨?_, ?_, interpPoint_segment (p :: l) hpw, interpPoint_support (p :: l) hpw⟩
    · intro u hu
      exact interpPoint_clamp_low p l u hu
    · intro u hu
      exact interpPoint_clamp_high l p hpw u hu

/-- Closed witness for C3 on the concrete rational series
`[(0, 2), (1, 4), (3, 0)]`, discharging the strict-ordering and nonemptiness
hypotheses. -/
theorem interpolator_piecewise_linear_witness :
    (([((0:ℚ), (2:ℚ)), (1, 4), (3, 0)] : List (ℚ × ℚ)).Pairwise (fun s r => s.1 < r.1)
      ∧ ([((0:ℚ), (2:ℚ)), (1, 4), (3, 0)] : List (ℚ × ℚ)) ≠ [])
    ∧ (∀ s ∈ ([((0:ℚ), (2:ℚ)), (1, 4), (3, 0)] : List (ℚ × ℚ)),
        interpPoint [((0:ℚ), (2:ℚ)), (1, 4), (3, 0)] s.1 = s.2)
    ∧ interpPoint ([((0:ℚ), (2:ℚ)), (1, 4), (3, 0)] : List (ℚ × ℚ)) 2 = 2
    ∧ interpPoint ([((0:ℚ), (2:ℚ)), (1, 4), (3, 0)] : List (ℚ × ℚ)) (-1) = 2
    ∧ interpPoint ([((0:ℚ), (2:ℚ)), (1, 4), (3, 0)] : List (ℚ × ℚ)) 7 = 0 :=
  ⟨⟨by decide, by decide⟩,
    (interpolator_piecewise_linear ([((0:ℚ), (2:ℚ)), (1, 4), (3, 0)] : List (ℚ × ℚ))
      (by decide) (by decide)).2.2.2,
    by norm_num [interpPoint], by norm_num [interpPoint], by norm_num [interpPoint]⟩

/-- Claim C6: for every scalar time and every parameter setting, the
`TimeEmbedding` forward pass produces a vector of exactly the configured
dimension whose coordinate `i` is `cos (w i * t + b i)`, so every coordinate
lies in `[-1, 1]`. -/
theorem timeEmbedding_spec (dim : ℕ) (w b : Fin dim → ℝ) (t : ℝ) :
    (List.ofFn (timeEmbedding w b t)).length = dim
    ∧ ∀ i : Fin dim,
        timeEmbedding w b t i = Real.cos (w i * t + b i)
        ∧ -1 ≤ timeEmbedding w b t i ∧ timeEmbedding w b t i ≤ 1 :=
  ⟨by simp, fun i => ⟨rfl, Real.neg_one_le_cos _, Real.cos_le_one _⟩⟩

/-- Claim C7: in exact real arithmetic, every attention call produces
row-stochastic weights: for any batch size, head count and sequence length,
each entry of `mtaWeights` is non-negative and each row (the distribution over
key positions for one query position, independently per batch element, head
and query position) sums to 1. -/
theorem mtaWeights_row_stochastic (B L D E H hd : ℕ) (p : MTAParams D E)
    (x : Fin B → Fin L → Fin D → ℝ) (t : Fin B → Fin L → ℝ)
    (b : Fin B) (h : Fin H) (i : Fin L) :
    (∀ j, 0 ≤ mtaWeights H hd p x t b h i j)
    ∧ (∑ j, mtaWeights H hd p x t b h i j) = 1 := by
  have hS : 0 < ∑ j' : Fin L, Real.exp (mtaLogits H hd p x t b h i j') :=
    Finset.sum_pos (fun j _ => Real.exp_pos _) ⟨i, Finset.mem_univ i⟩
  constructor
  · intro j
    exact div_nonneg (Real.exp_pos _).le hS.le
  · simp only [mtaWeights]
    rw [← Finset.sum_div]
    exact div_self hS.ne'

/-- Claim C1: for each head, the attention logit for a (query position, key
position) pair is the sum of the two scaled dot-products over that head's
slice of the flat projections — `(Q·K)/sqrt(headDim) + (Q·TE)/sqrt(headDim)` —
computed as two independent score tensors (`mtaScoreContent`, `mtaScoreTime`)
summed before the softmax normalization along the key axis. -/
theorem mta_logits_two_scores {B L D E : ℕ} (H hd : ℕ) (p : MTAParams D E)
    (x : Fin B → Fin L → Fin D → ℝ) (t : Fin B → Fin L → ℝ)
    (hE : H * hd = E) (b : Fin B) (h : Fin H) (i j : Fin L) :
    mtaLogits H hd p x t b h i j = mtaScoreContent H hd p x b h i j + mtaScoreTime H hd p x t b h i j
    ∧ mtaLogits H hd p x t b h i j
      = (∑ d : Fin hd, mtaQ p x b i (headIdx hd h d hE) * mtaK p x b j (headIdx hd h d hE))
          / Real.sqrt hd
        + (∑ d : Fin hd, mtaQ p x b i (headIdx hd h d hE) * mtaTE p t b j (headIdx hd h d hE))
          / Real.sqrt hd
    ∧ mtaWeights H hd p x t b h i j
      = Real.exp (mtaLogits H hd p x t b h i j)
          / ∑ j' : Fin L, Real.exp (mtaLogits H hd p x t b h i j') := by
  have hs : ∀ (v : Fin E → ℝ) (d : Fin hd), headSlice hd v h d = v (headIdx hd h d hE) :=
    fun v d => dif_pos (headIdx hd h d hE).isLt
  refine ⟨rfl, ?_, rfl⟩
  have h1 : mtaScoreContent H hd p x b h i j
      = (∑ d : Fin hd, mtaQ p x b i (headIdx hd h d hE) * mtaK p x b j (headIdx hd h d hE))
          / Real.sqrt hd := by
    simp only [mtaScoreContent]
    congr 1
    exact Finset.sum_congr rfl fun d _ => by rw [hs, hs]
  have h2 : mtaScoreTime H hd p x t b h i j
      = (∑ d : Fin hd, mtaQ p x b i (headIdx hd h d hE) * mtaTE p t b j (headIdx hd h d hE))
          / Real.sqrt hd := by
    simp only [mtaScoreTime]
    congr 1
    exact Finset.sum_congr rfl fun d _ => by rw [hs, hs]
  rw [← h1, ← h2]
  rfl

/-- Closed witness for C1 at a concrete one-head, one-dimensional
configuration, discharging the `num_heads * head_dim = embed_dim` hypothesis. -/
theorem mta_logits_two_scores_witness :
    (1 * 1 = 1)
    ∧ mtaLogits (B := 1) (L := 1) (D := 1) (E := 1) 1 1 mtaP1
          (fun _ _ _ => 0) (fun _ _ => 0) 0 0 0 0
        = mtaScoreContent (B := 1) (L := 1) (D := 1) (E := 1) 1 1 mtaP1
            (fun _ _ _ => 0) 0 0 0 0
          + mtaScoreTime (B := 1) (L := 1) (D := 1) (E := 1) 1 1 mtaP1
            (fun _ _ _ => 0) (fun _ _ => 0) 0 0 0 0 :=
  ⟨rfl, (mta_logits_two_scores 1 1 mtaP1 (fun _ _ _ => 0) (fun _ _ => 0) rfl 0 0 0 0).1⟩

/-- Claim C8: with an empty layer list, the `ImprovedMTAN` forward pass is the
output projection composed with the input projection applied independently at
each position, and its output does not depend on the timestamp sequence; with
layers present, the stack appends each attention block's output to that block's
own input (residual connection), the shapes being preserved by construction at
every depth. -/
theorem mtan_depth_zero_and_residual {B L E : ℕ} (H hd : ℕ) (p : MTANParams E)
    (t x : Fin B → Fin L → ℝ) (hlay : p.layers = []) :
    mtanForwardCore H hd p t x = (fun b i => specPureProjection p (x b i))
    ∧ (∀ t2 : Fin B → Fin L → ℝ, mtanForwardCore H hd p t2 x = mtanForwardCore H hd p t x)
    ∧ ∀ (ls : List (MTAParams E E)) (q : MTAParams E E) (h0 : Fin B → Fin L → Fin E → ℝ),
        mtanHidden (B := B) (L := L) H hd (ls ++ [q]) t h0
          = fun b i e =>
              mtaOut H hd q (mtanHidden H hd ls t h0) t b i e
                + mtanHidden H hd ls t h0 b i e := by
  refine ⟨?_, ?_, ?_⟩
  · funext b i
    simp [mtanForwardCore, mtanHidden, hlay, specPureProjection]
  · intro t2
    funext b i
    simp [mtanForwardCore, mtanHidden, hlay]
  · intro ls q h0
    funext b i e
    simp [mtanHidden, List.foldl_append]

/-- Closed witness for C8 at a concrete zero-layer width-1 model, discharging
the empty-layer-list hypothesis. -/
theorem mtan_depth_zero_and_residual_witness :
    mtanP1.layers = []
    ∧ mtanForwardCore (B := 1) (L := 1) 1 1 mtanP1 (fun _ _ => 0) (fun _ _ => 0)
        = (fun b i => specPureProjection mtanP1 ((fun (_ : Fin 1) (_ : Fin 1) => (0:ℝ)) b i)) :=
  ⟨rfl,
    (mtan_depth_zero_and_residual 1 1 mtanP1 (fun _ _ => 0) (fun _ _ => 0) rfl).1⟩

/-- Claim C9: an `interpolate` call is a pure read of the model state: it runs
under `torch.no_grad()` and performs no assignment, so every learned weight
(time-embedding parameters, Q/K/V projections, input and output projections)
and every gradient buffer in the state is exactly the same after the call as
before it. -/
theorem interpolate_frame {E : ℕ} {γ : Type} (H hd : ℕ) (st : ModelSt E γ)
    (t x tq : List ℝ) :
    (interpolateCall H hd st t x tq).2 = st := rfl

/-- Claim C10: `interpolate` is deterministic and consults nothing beyond the
model parameters and its arguments: two calls on states carrying the same
parameters (but arbitrary, even differently-typed, residual autograd state)
and identical observed series and query grid return identical outputs. -/
theorem interpolate_deterministic {E : ℕ} {γ γ2 : Type} (H hd : ℕ)
    (st : ModelSt E γ) (st2 : ModelSt E γ2) (t x tq : List ℝ)
    (hp : st.params = st2.params) :
    (interpolateCall H hd st t x tq).1 = (interpolateCall H hd st2 t x tq).1 := by
  simp only [interpolateCall, hp]

/-- Closed witness for C10: two model states with equal parameters but
different gradient-buffer contents yield the same interpolation output. -/
theorem interpolate_deterministic_witness :
    (ModelSt.mk (γ := Bool) mtanP1 true).params = (ModelSt.mk (γ := Bool) mtanP1 false).params
    ∧ (interpolateCall 1 1 (ModelSt.mk (γ := Bool) mtanP1 true) [0] [0] [0, 1]).1
        = (interpolateCall 1 1 (ModelSt.mk (γ := Bool) mtanP1 false) [0] [0] [0, 1]).1 :=
  ⟨rfl,
    interpolate_deterministic 1 1 (ModelSt.mk (γ := Bool) mtanP1 true)
      (ModelSt.mk (γ := Bool) mtanP1 false) [0] [0] [0, 1] rfl⟩

/-- Claim C5: for a nonempty observed series (of any length) and a valid model,
`interpolate` succeeds and returns exactly one scalar per query timestamp: the
output length equals the query-grid length and does not depend on the observed
series length. -/
theorem interpolate_length {E : ℕ} (H hd : ℕ) (p : MTANParams E) (t x tq : List ℝ)
    (hlen : t.length = x.length) (hpos : 0 < t.length)
    (hview : p.layers = [] ∨ H * hd = E) :
    ∃ out, interpolate H hd p t x tq = some out ∧ out.length = tq.length := by
  have hc : (p.layers.isEmpty = true) ∨ 1 * tq.length * E = 1 * tq.length * (H * hd) := by
    rcases hview with h | h
    · exact Or.inl (by simp [h])
    · exact Or.inr (by rw [h])
  have hsome : interpolate H hd p t x tq
      = some (List.ofFn fun i : Fin tq.length =>
          mtanForwardCore (B := 1) (L := tq.length) H hd p
            (fun _ j => tq.get j) (fun _ j => interpPoint (t.zip x) (tq.get j)) 0 i) := by
    simp only [interpolate, mtanForwardChecked]
    rw [if_pos ⟨hlen, hpos⟩, if_pos hc]
  exact ⟨_, hsome, by simp⟩

/-- Closed witness for C5: a length-1 observed series queried on a length-2
grid yields a defined output of length 2, discharging the length and
valid-configuration hypotheses. -/
theorem interpolate_length_witness :
    (([(0:ℝ)] : List ℝ).length = ([(0:ℝ)] : List ℝ).length
      ∧ 0 < ([(0:ℝ)] : List ℝ).length
      ∧ (mtanP1.layers = [] ∨ 1 * 1 = 1))
    ∧ ∃ out, interpolate (E := 1) 1 1 mtanP1 [0] [0] [0, 1] = some out
        ∧ out.length = ([(0:ℝ), 1] : List ℝ).length :=
  ⟨⟨rfl, by simp, Or.inl rfl⟩,
    interpolate_length 1 1 mtanP1 [0] [0] [0, 1] rfl (by simp) (Or.inl rfl)⟩

/-- Claim C4 counterexample: a training run whose loss is NaN from the first
epoch onward still executes every configured epoch — the trace of `train_model`
has full length, the run terminates normally with the non-finite state, and at
no point does the loop stop short of the configured epoch count.  This refutes
the claim that the Trainer stops the run and surfaces an error on a non-finite
loss. -/
theorem train_model_ignores_nonfinite_loss_cex :
    FVal.nan ∈ trainTrace divergingStep (FVal.fin 1) 5
    ∧ (trainTrace divergingStep (FVal.fin 1) 5).length = 5 + 1
    ∧ ¬ (trainTrace divergingStep (FVal.fin 1) 5).length < 5 + 1
    ∧ train_model divergingStep (FVal.fin 1) 5 = FVal.nan
    ∧ (trainTrace divergingStep (FVal.fin 1) 5).all
        (fun s => decide (s = FVal.fin 1 ∨ s.isFinite = false)) = true := by
  decide

/-- Claim C4 (amended): `train_model` performs no finiteness check: for every
epoch body and every initial state, the loop executes exactly the configured
number of epochs (the state trace has length `epochs + 1`), and each successive
epoch runs unconditionally on the previous state, whatever loss value that
state carries; no error is surfaced and no early stop exists. -/
theorem train_model_runs_all_epochs {σ : Type} (step : ℕ → σ → σ) (s0 : σ)
    (epochs : ℕ) :
    (trainTrace step s0 epochs).length = epochs + 1
    ∧ train_model step s0 (epochs + 1) = step epochs (train_model step s0 epochs) := by
  constructor
  · simp [trainTrace, List.length_scanl]
  · simp [train_model, List.range_succ]

/-- Claim C2 (code bug): `ImprovedMTAN.__init__` with `hidden_dim = 64` and
`num_heads = 3` — a configuration with `64 % 3 ≠ 0` — is not rejected:
construction succeeds, recording the floored `head_dim = 21` in every layer,
and the broken invariant `num_heads * head_dim = embed_dim` is only hit later,
inside the forward pass, where the `view` reshape fails (`mtanForwardChecked`
returns `none`). -/
theorem mtan_init_accepts_indivisible_heads :
    mtanInit 1 64 3 2
        = some ⟨1, 64, 3, 2, [⟨64, 64, 3, 21⟩, ⟨64, 64, 3, 21⟩]⟩
    ∧ 64 % 3 ≠ 0
    ∧ (mtaInit 64 64 3).isSome = true
    ∧ viewOk 1 30 ⟨64, 64, 3, 21⟩ = false
    ∧ mtanForwardChecked (B := 1) (L := 1) 3 21 mtanP64
        (fun _ _ => 0) (fun _ _ => 0) = none := by
  refine ⟨by decide, by decide, by decide, by decide, ?_⟩
  have hcond : ¬ ((mtanP64.layers.isEmpty = true) ∨ 1 * 1 * 64 = 1 * 1 * (3 * 21)) := by
    simp [mtanP64]
  simp only [mtanForwardChecked]
  rw [if_neg hcond]
